import Mathlib

/-!
Verification of the `dcl_data_structures` ring-buffer core (the "Disruptor"
transport) of the deep_causality repository, against its natural-language
specification.  Pure parts of the code are embedded as Lean functions; the
stateful producer/consumer protocol is embedded as explicit state machines.
Parts of the crate not present among the provided sources (the `Sequence`
alias, barrier, wait strategies, consumer loop, producer claim logic) are
modelled from the specification; each such definition says so in its doc
comment.
-/

set_option maxHeartbeats 1000000

namespace DclRingBuffer

/-- The ring-buffer `Sequence` value type. Modelled from the spec: a 64-bit
signed counter ("conceptually unbounded monotonic increase"), embedded as
`Int`. -/
abbrev Sequence := Int

/-- Modelled from the spec: the `Sequence` type's default sentinel value,
"a default sentinel (0 in the current design)" (spec §4.2); the `Default`
implementation for the alias is outside the provided sources. -/
def sequenceDefault : Sequence := 0

/-- An atomic sequence cell (`AtomicSequence`). Holds the current 64-bit
value; reads are atomic loads. -/
structure AtomicSeq where
  value : Int
  deriving DecidableEq, Repr

/-- Atomic load (`get()`): returns the current value together with the cell
state after the read, which an atomic load leaves unchanged. -/
def AtomicSeq.get (s : AtomicSeq) : Int × AtomicSeq :=
  (s.value, s)

/-- `sequences.iter().map(|s| s.borrow().get())`: reads every cell in slice
order, returning the values read and the post-read cells. -/
def readAll : List AtomicSeq → List Int × List AtomicSeq
  | [] => ([], [])
  | s :: rest =>
    let (v, s') := s.get
    let (vs, rest') := readAll rest
    (v :: vs, s' :: rest')

/-- `Iterator::min()` over a list of values: `none` on an empty iterator,
otherwise the smallest element. -/
def listMin : List Int → Option Int
  | [] => none
  | x :: xs =>
    match listMin xs with
    | none => some x
    | some m => some (min x m)

/-- `get_min_cursor_sequence`
(`src/dcl_data_structures/src/ring_buffer/utils/cursor_sequence.rs`):
maps `get()` over the slice, takes the iterator minimum, and
`unwrap_or_default()` the result. -/
def get_min_cursor_sequence (sequences : List AtomicSeq) :
    Sequence × List AtomicSeq :=
  let (vs, seqs') := readAll sequences
  ((listMin vs).getD sequenceDefault, seqs')

lemma readAll_fst (l : List AtomicSeq) :
    (readAll l).1 = l.map (fun s => s.value) := by
  induction l with
  | nil => rfl
  | cons s rest ih => simp [readAll, AtomicSeq.get, ih]

lemma readAll_snd (l : List AtomicSeq) : (readAll l).2 = l := by
  induction l with
  | nil => rfl
  | cons s rest ih => simp [readAll, AtomicSeq.get, ih]

lemma listMin_isSome {x : Int} {xs : List Int} :
    ∃ m, listMin (x :: xs) = some m := by
  cases h : listMin xs with
  | none => exact ⟨x, by simp [listMin, h]⟩
  | some m => exact ⟨min x m, by simp [listMin, h]⟩

lemma listMin_spec : ∀ {l : List Int} {m : Int}, listMin l = some m →
    m ∈ l ∧ ∀ v ∈ l, m ≤ v := by
  intro l
  induction l with
  | nil => intro m h; simp [listMin] at h
  | cons x xs ih =>
    intro m h
    cases hx : listMin xs with
    | none =>
      cases xs with
      | nil =>
        simp [listMin] at h
        constructor
        · simp [h]
        · intro v hv; simp at hv; omega
      | cons y ys =>
        rcases @listMin_isSome y ys with ⟨m', hm'⟩
        simp [hm'] at hx
    | some m' =>
      simp [listMin, hx] at h
      obtain ⟨hmem', hle'⟩ := ih hx
      constructor
      · rcases le_total x m' with hc | hc
        · have hm : m = x := by omega
          simp [hm]
        · have hm : m = m' := by omega
          exact hm ▸ List.mem_cons_of_mem x hmem'
      · intro v hv
        rcases List.mem_cons.mp hv with rfl | hv
        · omega
        · have := hle' v hv
          omega

lemma listMin_mem {l : List Int} {m : Int} (h : listMin l = some m) :
    m ∈ l := (listMin_spec h).1

lemma listMin_le {l : List Int} {m : Int} (h : listMin l = some m) :
    ∀ v ∈ l, m ≤ v := (listMin_spec h).2

/-- C1: for the empty input slice, `get_min_cursor_sequence` returns the
sequence type's default sentinel value, which is `0`, not a
positive-infinity sentinel. -/
theorem min_sequence_empty_returns_default :
    get_min_cursor_sequence [] = (sequenceDefault, []) ∧ sequenceDefault = 0 :=
  ⟨rfl, rfl⟩

/-- C2: for every non-empty slice, `get_min_cursor_sequence` returns exactly
the minimum of the values obtained by calling `get()` on each sequence in the
slice: the result is one of those values and is a lower bound for all of
them. -/
theorem min_sequence_nonempty_is_min (sequences : List AtomicSeq)
    (h : sequences ≠ []) :
    (get_min_cursor_sequence sequences).1
        ∈ sequences.map (fun s => (AtomicSeq.get s).1) ∧
    ∀ v ∈ sequences.map (fun s => (AtomicSeq.get s).1),
        (get_min_cursor_sequence sequences).1 ≤ v := by
  cases sequences with
  | nil => exact absurd rfl h
  | cons s rest =>
    have hvals : (readAll (s :: rest)).1
        = (s :: rest).map (fun t => t.value) := readAll_fst _
    rcases @listMin_isSome s.value (rest.map (fun t => t.value)) with ⟨m, hm⟩
    have hmin : listMin ((readAll (s :: rest)).1) = some m := by
      rw [hvals]; simpa using hm
    have hres : (get_min_cursor_sequence (s :: rest)).1 = m := by
      simp only [get_min_cursor_sequence]
      rw [hmin]
      rfl
    constructor
    · rw [hres]
      have := listMin_mem hmin
      rw [hvals] at this
      simpa [AtomicSeq.get] using this
    · intro v hv
      rw [hres]
      refine listMin_le hmin v ?_
      rw [hvals]
      simpa [AtomicSeq.get] using hv

/-- C2 witness: `min_sequence([5, 2, 9])` returns `2`, which is a member of
and a lower bound of the read values. -/
theorem min_sequence_nonempty_is_min_witness :
    (get_min_cursor_sequence [⟨5⟩, ⟨2⟩, ⟨9⟩]).1 = 2 ∧
    ((get_min_cursor_sequence [⟨5⟩, ⟨2⟩, ⟨9⟩]).1
        ∈ [AtomicSeq.mk 5, ⟨2⟩, ⟨9⟩].map (fun s => (AtomicSeq.get s).1) ∧
      ∀ v ∈ [AtomicSeq.mk 5, ⟨2⟩, ⟨9⟩].map (fun s => (AtomicSeq.get s).1),
        (get_min_cursor_sequence [⟨5⟩, ⟨2⟩, ⟨9⟩]).1 ≤ v) :=
  ⟨rfl, min_sequence_nonempty_is_min [⟨5⟩, ⟨2⟩, ⟨9⟩] (List.cons_ne_nil _ _)⟩

/-- C10: `get_min_cursor_sequence` only reads its input: the post-call state
of every sequence cell in the slice is exactly the pre-call state. -/
theorem min_sequence_leaves_sequences_unchanged (sequences : List AtomicSeq) :
    (get_min_cursor_sequence sequences).2 = sequences := by
  simp only [get_min_cursor_sequence]
  exact readAll_snd sequences

/-! ## Ring buffer construction (spec §4.7, §7) -/

/-- Configuration errors surfaced at ring-buffer construction time. -/
inductive ConfigError where
  | notPowerOfTwo
  deriving DecidableEq, Repr

/-- A successfully constructed ring buffer configuration: the fixed slot
count chosen at setup. -/
structure RingBufferCfg where
  capacity : Nat
  deriving DecidableEq, Repr

/-- Executable power-of-two test performed by the constructor
(`capacity.is_power_of_two()`). -/
def isPowTwo (c : Nat) : Bool :=
  (List.range (c + 1)).any (fun k => c == 2 ^ k)

/-- Modelled from the spec: `new(capacity)` "fails with a configuration
error if `capacity` is not a power of two" and creates no partial buffer on
failure; the RingBuffer constructor is outside the provided sources. -/
def ringBufferNew (capacity : Nat) : Except ConfigError RingBufferCfg :=
  if isPowTwo capacity then .ok ⟨capacity⟩ else .error .notPowerOfTwo

lemma isPowTwo_iff (c : Nat) : isPowTwo c = true ↔ ∃ k, c = 2 ^ k := by
  constructor
  · intro h
    rcases List.any_eq_true.mp h with ⟨k, _, hk⟩
    exact ⟨k, by simpa using hk⟩
  · rintro ⟨k, rfl⟩
    refine List.any_eq_true.mpr ⟨k, List.mem_range.mpr ?_, by simp⟩
    exact Nat.lt_succ_of_lt (Nat.lt_two_pow k)

/-- C5: construction succeeds exactly on power-of-two capacities: every
power-of-two capacity yields a buffer with that capacity, and every other
capacity fails with the configuration error (the `Except` result carries no
buffer in that case). -/
theorem ring_buffer_new_power_of_two (capacity : Nat) :
    ((∃ k, capacity = 2 ^ k) →
        ringBufferNew capacity = Except.ok ⟨capacity⟩) ∧
    ((¬ ∃ k, capacity = 2 ^ k) →
        ringBufferNew capacity = Except.error ConfigError.notPowerOfTwo) := by
  constructor
  · intro h
    simp [ringBufferNew, (isPowTwo_iff capacity).mpr h]
  · intro h
    cases hb : isPowTwo capacity with
    | true => exact absurd ((isPowTwo_iff capacity).mp hb) h
    | false => simp [ringBufferNew, hb]

/-- C5 witness: capacity 8 (a power of two) succeeds; capacity 3 fails with
the configuration error. -/
theorem ring_buffer_new_power_of_two_witness :
    ringBufferNew 8 = Except.ok ⟨8⟩ ∧
    ringBufferNew 3 = Except.error ConfigError.notPowerOfTwo :=
  ⟨(ring_buffer_new_power_of_two 8).1 ⟨3, rfl⟩,
   (ring_buffer_new_power_of_two 3).2 (by
     rintro ⟨k, hk⟩
     match k, hk with
     | 0, hk => norm_num at hk
     | 1, hk => norm_num at hk
     | (n + 2), hk =>
       have h4 : 4 ≤ 2 ^ (n + 2) := by
         calc (4 : Nat) = 2 ^ 2 := rfl
           _ ≤ 2 ^ (n + 2) := Nat.pow_le_pow_right (by omega) (by omega)
       omega)⟩

/-! ## SequenceBarrier (spec §4.4) -/

/-- Modelled from the spec: a `SequenceBarrier` holds the producer cursor
and the dependent sequences it gates on (the wait strategy it also holds is
irrelevant to availability); the barrier source is outside the provided
sources. -/
structure SeqBarrier where
  cursor : AtomicSeq
  dependents : List AtomicSeq
  deriving DecidableEq, Repr

/-- Modelled from the spec: `get_available()` "computes
`min_sequence([cursor] + dependents)`", realized through the in-source
`get_min_cursor_sequence`. -/
def SeqBarrier.get_available (b : SeqBarrier) : Sequence :=
  (get_min_cursor_sequence (b.cursor :: b.dependents)).1

lemma get_min_fst (l : List AtomicSeq) :
    (get_min_cursor_sequence l).1
      = (listMin (l.map (fun s => s.value))).getD sequenceDefault := by
  simp only [get_min_cursor_sequence]
  rw [readAll_fst]

lemma listMin_mono : ∀ {l l' : List Int}, List.Forall₂ (· ≤ ·) l l' →
    ∀ {m m' : Int}, listMin l = some m → listMin l' = some m' → m ≤ m' := by
  intro l l' hf
  induction hf with
  | nil => intro m m' h _; simp [listMin] at h
  | cons hxy hf2 ih =>
    rename_i x y xs ys
    intro m m' h h'
    cases hxs : listMin xs with
    | none =>
      have hys : listMin ys = none := by
        cases hf2 with
        | nil => rfl
        | cons h2 hf3 =>
          rename_i a b as bs
          rcases @listMin_isSome a as with ⟨q, hq⟩
          rw [hq] at hxs
          cases hxs
      simp [listMin, hxs] at h
      simp [listMin, hys] at h'
      omega
    | some q =>
      have hys : ∃ q', listMin ys = some q' := by
        cases hf2 with
        | nil => simp [listMin] at hxs
        | cons h2 hf3 =>
          rename_i a b as bs
          exact @listMin_isSome b bs
      rcases hys with ⟨q', hq'⟩
      simp [listMin, hxs] at h
      simp [listMin, hq'] at h'
      have := ih hxs hq'
      omega

lemma get_available_eq_listMin (b : SeqBarrier) :
    ∃ m, listMin ((b.cursor :: b.dependents).map (fun s => s.value)) = some m
        ∧ b.get_available = m := by
  rcases @listMin_isSome b.cursor.value (b.dependents.map (fun s => s.value))
    with ⟨m, hm⟩
  refine ⟨m, by simpa using hm, ?_⟩
  rw [SeqBarrier.get_available, get_min_fst]
  simp only [List.map_cons]
  simp only [List.map_cons] at hm
  rw [hm]
  rfl

/-- C7: `get_available()` equals the minimum over the producer cursor
together with all dependent sequences (it is one of those current values and
a lower bound for all of them), and when no tracked sequence has regressed
between two observations the reported availability does not regress either
(monotone non-decreasing across successive calls). -/
theorem barrier_available_is_min_and_monotone (b b' : SeqBarrier)
    (hcursor : b.cursor.value ≤ b'.cursor.value)
    (hdeps : List.Forall₂ (fun s t => s.value ≤ t.value)
        b.dependents b'.dependents) :
    (b.get_available ∈ (b.cursor :: b.dependents).map (fun s => s.value) ∧
      ∀ v ∈ (b.cursor :: b.dependents).map (fun s => s.value),
        b.get_available ≤ v) ∧
    b.get_available ≤ b'.get_available := by
  rcases get_available_eq_listMin b with ⟨m, hm, hbm⟩
  rcases get_available_eq_listMin b' with ⟨m', hm', hbm'⟩
  refine ⟨⟨?_, ?_⟩, ?_⟩
  · rw [hbm]; exact listMin_mem hm
  · intro v hv; rw [hbm]; exact listMin_le hm v hv
  · rw [hbm, hbm']
    refine listMin_mono ?_ hm hm'
    simp only [List.map_cons]
    exact List.Forall₂.cons hcursor (List.forall₂_map_right_iff.mpr
      ((List.forall₂_map_left_iff).mpr hdeps))

/-- C7 witness: for the barrier over cursor 3 and dependents [5, 1],
availability is 1, and against the later observation (cursor 4,
dependents [6, 1]) it has not regressed. -/
theorem barrier_available_is_min_and_monotone_witness :
    SeqBarrier.get_available ⟨⟨3⟩, [⟨5⟩, ⟨1⟩]⟩ = 1 ∧
    SeqBarrier.get_available ⟨⟨3⟩, [⟨5⟩, ⟨1⟩]⟩
      ≤ SeqBarrier.get_available ⟨⟨4⟩, [⟨6⟩, ⟨1⟩]⟩ :=
  ⟨rfl,
   (barrier_available_is_min_and_monotone ⟨⟨3⟩, [⟨5⟩, ⟨1⟩]⟩ ⟨⟨4⟩, [⟨6⟩, ⟨1⟩]⟩
     (by norm_num)
     (List.Forall₂.cons (by norm_num)
       (List.Forall₂.cons (by norm_num) List.Forall₂.nil))).2⟩

/-! ## Producer/consumer protocol state machine (spec §4.5, §4.7, §5) -/

/-- Modelled from the spec: the observable protocol state of one ring
buffer: the producer's highest claimed sequence, its published cursor, and
the gating (dependent) consumer sequences.  All counters start at the
"before first slot" sentinel. -/
structure RBState where
  claimed : Int
  cursor : AtomicSeq
  consumers : List AtomicSeq
  deriving DecidableEq, Repr

/-- Modelled from the spec: the initial protocol state for `k` consumers:
every sequence holds the sentinel -1, "no slot yet claimed/published". -/
def initState (k : Nat) : RBState :=
  { claimed := -1, cursor := ⟨-1⟩, consumers := List.replicate k ⟨-1⟩ }

/-- Modelled from the spec: one protocol transition.
`claim` is `wait_for_capacity` followed by the claim of the next sequence:
it grants `claimed + 1` only once
`(claimed + 1) - min_sequence(gating sequences) < capacity`; while the gate
fails the producer blocks in the capacity wait, so no transition exists.
`publish` writes the slot and advances the cursor to the claimed sequence.
`consume` lets consumer `i` process a batch and set its sequence to the
batch end `a`, which its barrier bounds by the published cursor. -/
inductive RBStep (capacity : Nat) : RBState → RBState → Prop where
  | claim (s : RBState)
      (hgate : s.claimed + 1 - (get_min_cursor_sequence s.consumers).1
          < (capacity : Int)) :
      RBStep capacity s { s with claimed := s.claimed + 1 }
  | publish (s : RBState) (hlt : s.cursor.value < s.claimed) :
      RBStep capacity s { s with cursor := ⟨s.claimed⟩ }
  | consume (s : RBState) (i : Nat) (a : Int) (hi : i < s.consumers.length)
      (hadv : (s.consumers.get ⟨i, hi⟩).value < a)
      (hbound : a ≤ s.cursor.value) :
      RBStep capacity s { s with consumers := s.consumers.set i ⟨a⟩ }

/-- The states reachable from the initial state for `k` consumers. -/
def Reachable (capacity k : Nat) (s : RBState) : Prop :=
  Relation.ReflTransGen (RBStep capacity) (initState k) s

lemma forall₂_value_le_set (l : List AtomicSeq) (i : Nat) (a : Int)
    (hi : i < l.length) (ha : (l.get ⟨i, hi⟩).value ≤ a) :
    List.Forall₂ (fun c c' => c.value ≤ c'.value) l (l.set i ⟨a⟩) := by
  induction l generalizing i with
  | nil => simp at hi
  | cons x xs ih =>
    cases i with
    | zero =>
      simp only [List.set]
      exact List.Forall₂.cons (by simpa using ha)
        (List.forall₂_same.mpr (fun c _ => le_rfl))
    | succ n =>
      simp only [List.set]
      exact List.Forall₂.cons le_rfl
        (ih n (by simpa using hi) (by simpa using ha))

lemma listMin_cons_some {x m : Int} {xs : List Int}
    (h : listMin xs = some m) : listMin (x :: xs) = some (min x m) := by
  simp only [listMin]
  simp [h]

lemma listMin_replicate (x : Int) : ∀ m : Nat,
    listMin (List.replicate (m + 1) x) = some x := by
  intro m
  induction m with
  | zero => rfl
  | succ j ihj =>
    rw [List.replicate_succ, listMin_cons_some ihj]
    simp

lemma get_min_mono {l l' : List AtomicSeq}
    (hf : List.Forall₂ (fun c c' => c.value ≤ c'.value) l l') :
    ((get_min_cursor_sequence l).1 : Int) ≤ (get_min_cursor_sequence l').1 := by
  cases hf with
  | nil => exact le_rfl
  | cons hxy hf2 =>
    rename_i x y xs ys
    rw [get_min_fst, get_min_fst]
    have hf' : List.Forall₂ (· ≤ ·) (xs.map (fun c => c.value))
        (ys.map (fun c => c.value)) :=
      List.forall₂_map_right_iff.mpr (List.forall₂_map_left_iff.mpr hf2)
    rcases @listMin_isSome x.value (xs.map (fun c => c.value)) with ⟨m, hm⟩
    rcases @listMin_isSome y.value (ys.map (fun c => c.value)) with ⟨m', hm'⟩
    rw [List.map_cons, List.map_cons, hm, hm']
    exact listMin_mono (List.Forall₂.cons hxy hf') hm hm'

/-- The inductive protocol invariant behind C3: the cursor never exceeds the
claimed sequence, and the claimed sequence never leads the gated minimum by
the capacity. -/
def GateInv (capacity : Nat) (s : RBState) : Prop :=
  s.cursor.value ≤ s.claimed ∧
  s.claimed - (get_min_cursor_sequence s.consumers).1 < (capacity : Int)

lemma gateInv_init (capacity k : Nat) (hcap : 0 < capacity) :
    GateInv capacity (initState k) := by
  constructor
  · exact le_rfl
  · cases k with
    | zero =>
      simp [initState, get_min_cursor_sequence, readAll, listMin,
        sequenceDefault]
      omega
    | succ n =>
      have hmin : (get_min_cursor_sequence (initState (n + 1)).consumers).1
          = -1 := by
        rw [get_min_fst]
        simp [initState, List.map_replicate, listMin_replicate,
          sequenceDefault]
      rw [hmin]
      simp only [initState]
      omega

lemma gateInv_step {capacity : Nat} {s s' : RBState}
    (hstep : RBStep capacity s s') (hinv : GateInv capacity s) :
    GateInv capacity s' := by
  obtain ⟨hcl, hgap⟩ := hinv
  cases hstep with
  | claim hgate =>
    refine ⟨?_, ?_⟩
    · show s.cursor.value ≤ s.claimed + 1
      omega
    · show s.claimed + 1 - (get_min_cursor_sequence s.consumers).1
          < (capacity : Int)
      exact hgate
  | publish hlt =>
    refine ⟨?_, ?_⟩
    · show s.claimed ≤ s.claimed
      exact le_rfl
    · show s.claimed - (get_min_cursor_sequence s.consumers).1
          < (capacity : Int)
      exact hgap
  | consume i a hi hadv hbound =>
    refine ⟨?_, ?_⟩
    · show s.cursor.value ≤ s.claimed
      exact hcl
    · show s.claimed - (get_min_cursor_sequence (s.consumers.set i ⟨a⟩)).1
          < (capacity : Int)
      have hmono := get_min_mono
        (forall₂_value_le_set s.consumers i a hi (le_of_lt hadv))
      exact lt_of_le_of_lt (sub_le_sub_left hmono s.claimed) hgap

lemma gateInv_reachable {capacity k : Nat} (hcap : 0 < capacity)
    {s : RBState} (hr : Reachable capacity k s) : GateInv capacity s := by
  induction hr with
  | refl => exact gateInv_init capacity k hcap
  | tail _ hstep ih => exact gateInv_step hstep ih

/-- C3: in every reachable protocol state,
`cursor - min(dependent consumer sequences) < capacity`: the published
cursor never laps an unconsumed slot.  A producer whose capacity gate
`(claimed + 1) - min < capacity` fails has no `claim` transition — it stays
blocked in the capacity wait until a `consume` step advances the minimum —
so unconsumed data is never overwritten. -/
theorem producer_never_laps_consumers (capacity k : Nat) (hcap : 0 < capacity)
    (s : RBState) (hr : Reachable capacity k s) :
    s.cursor.value - (get_min_cursor_sequence s.consumers).1 < (capacity : Int)
    ∧ ∀ m, listMin (s.consumers.map (fun c => c.value)) = some m →
        s.cursor.value - m < (capacity : Int) := by
  obtain ⟨hcl, hgap⟩ := gateInv_reachable hcap hr
  constructor
  · omega
  · intro m hm
    have heq : (get_min_cursor_sequence s.consumers).1 = m := by
      simp [get_min_fst, hm]
    rw [← heq]
    omega

/-- C3 witness: with capacity 2 and one consumer, after claiming and
publishing sequence 0 the cursor leads the (still sentinel-valued) consumer
by exactly 1, strictly below the capacity. -/
theorem producer_never_laps_consumers_witness :
    (RBState.mk 0 ⟨0⟩ [⟨-1⟩]).cursor.value
        - (get_min_cursor_sequence (RBState.mk 0 ⟨0⟩ [⟨-1⟩]).consumers).1
        < (2 : Int) ∧
    ∀ m, listMin ((RBState.mk 0 ⟨0⟩ [⟨-1⟩]).consumers.map (fun c => c.value))
          = some m →
        (RBState.mk 0 ⟨0⟩ [⟨-1⟩]).cursor.value - m < (2 : Int) :=
  producer_never_laps_consumers 2 1 (by decide) (RBState.mk 0 ⟨0⟩ [⟨-1⟩])
    (Relation.ReflTransGen.tail
      (Relation.ReflTransGen.tail Relation.ReflTransGen.refl
        (RBStep.claim (initState 1) (by decide)))
      (RBStep.publish (RBState.mk 0 ⟨-1⟩ [⟨-1⟩]) (by decide)))

/-- C9: every sequence counter in the protocol (claimed counter, producer
cursor, every consumer sequence) starts at the "before first slot" sentinel
-1, and no protocol transition decreases any of them: values observed by any
reader never decrease. -/
theorem sequences_init_minus_one_and_monotone (capacity k : Nat)
    (s s' : RBState) (hstep : RBStep capacity s s') :
    ((initState k).claimed = -1 ∧ (initState k).cursor.value = -1 ∧
      ∀ c ∈ (initState k).consumers, c.value = -1) ∧
    (s.claimed ≤ s'.claimed ∧ s.cursor.value ≤ s'.cursor.value ∧
      List.Forall₂ (fun c c' => c.value ≤ c'.value) s.consumers s'.consumers) := by
  refine ⟨⟨rfl, rfl, ?_⟩, ?_⟩
  · intro c hc
    have := List.eq_of_mem_replicate hc
    rw [this]
  · cases hstep with
    | claim hgate =>
      refine ⟨?_, ?_, ?_⟩
      · show s.claimed ≤ s.claimed + 1
        omega
      · show s.cursor.value ≤ s.cursor.value
        exact le_rfl
      · exact List.forall₂_same.mpr (fun c _ => le_rfl)
    | publish hlt =>
      refine ⟨?_, ?_, ?_⟩
      · show s.claimed ≤ s.claimed
        exact le_rfl
      · show s.cursor.value ≤ s.claimed
        exact le_of_lt hlt
      · exact List.forall₂_same.mpr (fun c _ => le_rfl)
    | consume i a hi hadv hbound =>
      refine ⟨?_, ?_, ?_⟩
      · show s.claimed ≤ s.claimed
        exact le_rfl
      · show s.cursor.value ≤ s.cursor.value
        exact le_rfl
      · exact forall₂_value_le_set s.consumers i a hi (le_of_lt hadv)

/-- C9 witness: the claim of sequence 0 from the initial one-consumer state
decreases no counter, and the initial counters are all -1. -/
theorem sequences_init_minus_one_and_monotone_witness :
    (((initState 1).claimed = -1 ∧ (initState 1).cursor.value = -1 ∧
      ∀ c ∈ (initState 1).consumers, c.value = -1) ∧
    ((initState 1).claimed ≤ (RBState.mk 0 ⟨-1⟩ [⟨-1⟩]).claimed ∧
      (initState 1).cursor.value ≤ (RBState.mk 0 ⟨-1⟩ [⟨-1⟩]).cursor.value ∧
      List.Forall₂ (fun c c' => c.value ≤ c'.value)
        (initState 1).consumers (RBState.mk 0 ⟨-1⟩ [⟨-1⟩]).consumers)) :=
  sequences_init_minus_one_and_monotone 2 1 (initState 1)
    (RBState.mk 0 ⟨-1⟩ [⟨-1⟩]) (RBStep.claim (initState 1) (by decide))

/-! ## Consumer event-processing loop (spec §4.5) -/

/-- Modelled from the spec: the handler invocations of one consumer wake
cycle: once per sequence in `[next, available]` in increasing order, each
invocation carrying the sequence number and the end-of-batch flag, true
exactly on the last sequence of the batch. -/
def processBatch (next available : Int) : List (Int × Bool) :=
  (List.range (available + 1 - next).toNat).map
    (fun (i : Nat) => (next + (i : Int), next + (i : Int) == available))

/-- The closed integer interval `[lo, hi]` in increasing order. -/
def intRange (lo hi : Int) : List Int :=
  (List.range (hi + 1 - lo).toNat).map (fun (i : Nat) => lo + (i : Int))

/-- Modelled from the spec: a consumer run: starting from own sequence
`own`, each wake cycle takes the next availability value `a` returned by
the barrier, processes the batch `[own + 1, a]`, then sets the own sequence
to `a` (publishing progress).  Returns all handler invocations of the run
and the final own sequence. -/
def consumerRun (own : Int) : List Int → List (Int × Bool) × Int
  | [] => ([], own)
  | a :: rest =>
    let batch := processBatch (own + 1) a
    let (restInv, final) := consumerRun a rest
    (batch ++ restInv, final)

lemma processBatch_map_fst (next a : Int) :
    (processBatch next a).map Prod.fst = intRange next a := by
  simp [processBatch, intRange, List.map_map, Function.comp]

lemma mem_intRange {lo hi s : Int} : s ∈ intRange lo hi ↔ lo ≤ s ∧ s ≤ hi := by
  simp only [intRange, List.mem_map, List.mem_range]
  constructor
  · rintro ⟨i, hi2, rfl⟩
    omega
  · rintro ⟨h1, h2⟩
    exact ⟨(s - lo).toNat, by omega, by omega⟩

lemma intRange_pairwise (lo hi : Int) :
    List.Pairwise (· < ·) (intRange lo hi) := by
  refine List.Pairwise.map _ ?_ (List.pairwise_lt_range _)
  intro a b hab
  omega

lemma processBatch_flag {next a : Int} {p : Int × Bool}
    (hp : p ∈ processBatch next a) : p.2 = true ↔ p.1 = a := by
  simp only [processBatch, List.mem_map, List.mem_range] at hp
  rcases hp with ⟨i, hi2, rfl⟩
  simp

lemma intRange_append (lo mid hi : Int) (h1 : lo ≤ mid + 1) (h2 : mid ≤ hi) :
    intRange lo mid ++ intRange (mid + 1) hi = intRange lo hi := by
  have hn : (hi + 1 - lo).toNat = (mid + 1 - lo).toNat + (hi - mid).toNat := by
    omega
  simp only [intRange]
  rw [hn, List.range_add, List.map_append, List.map_map]
  congr 1
  · have hlen : (hi + 1 - (mid + 1)).toNat = (hi - mid).toNat := by omega
    rw [hlen]
    refine List.map_congr_left ?_
    intro i hi3
    simp only [Function.comp_apply]
    omega

lemma chain_le_getLastD : ∀ (rest : List Int) (a : Int),
    List.Chain (· < ·) a rest → a ≤ rest.getLastD a := by
  intro rest
  induction rest with
  | nil => intro a h; exact le_rfl
  | cons b bs ih =>
    intro a h
    cases h with
    | cons hab hchain =>
      rw [List.getLastD_cons]
      exact le_trans (le_of_lt hab) (ih b hchain)

lemma consumerRun_spec : ∀ (avails : List Int) (own : Int),
    List.Chain (· < ·) own avails →
    (consumerRun own avails).2 = avails.getLastD own ∧
    (consumerRun own avails).1.map Prod.fst
      = intRange (own + 1) (avails.getLastD own) := by
  intro avails
  induction avails with
  | nil =>
    intro own h
    refine ⟨rfl, ?_⟩
    show ([] : List Int) = intRange (own + 1) own
    have hz : (own + 1 - (own + 1)).toNat = 0 := by omega
    simp [intRange, hz]
  | cons a rest ih =>
    intro own h
    cases h with
    | cons hlt hchain =>
      obtain ⟨ih1, ih2⟩ := ih a hchain
      constructor
      · show (consumerRun a rest).2 = (a :: rest).getLastD own
        rw [List.getLastD_cons]
        exact ih1
      · show (processBatch (own + 1) a ++ (consumerRun a rest).1).map Prod.fst
            = intRange (own + 1) ((a :: rest).getLastD own)
        rw [List.map_append, List.getLastD_cons, processBatch_map_fst, ih2]
        exact intRange_append (own + 1) a (rest.getLastD a) (by omega)
          (chain_le_getLastD rest a hchain)

/-- C6: in a wake cycle where the barrier returns availability `available`
for desired `next`, the handler invocations are exactly one per sequence in
`[next, available]`, in strictly increasing order, with the end-of-batch
flag true exactly on the last sequence; and over a whole run (successive
wake cycles with increasing availability values) the consumer's sequence
ends at the last availability and each published sequence in
`[own + 1, last]` is processed exactly once, in FIFO order. -/
theorem consumer_batch_exactly_once_fifo (next available own : Int)
    (hna : next ≤ available) (avails : List Int)
    (hchain : List.Chain (· < ·) own avails) :
    ((processBatch next available).map Prod.fst = intRange next available ∧
     List.Pairwise (· < ·) ((processBatch next available).map Prod.fst) ∧
     (∀ q, q ∈ (processBatch next available).map Prod.fst ↔
        next ≤ q ∧ q ≤ available) ∧
     (∀ p ∈ processBatch next available, p.2 = true ↔ p.1 = available)) ∧
    ((consumerRun own avails).2 = avails.getLastD own ∧
     (consumerRun own avails).1.map Prod.fst
        = intRange (own + 1) (avails.getLastD own) ∧
     List.Pairwise (· < ·) ((consumerRun own avails).1.map Prod.fst)) := by
  obtain ⟨hrun1, hrun2⟩ := consumerRun_spec avails own hchain
  refine ⟨⟨processBatch_map_fst next available, ?_, ?_, ?_⟩,
    hrun1, hrun2, ?_⟩
  · rw [processBatch_map_fst]
    exact intRange_pairwise next available
  · intro q
    rw [processBatch_map_fst]
    exact mem_intRange
  · intro p hp
    exact processBatch_flag hp
  · rw [hrun2]
    exact intRange_pairwise (own + 1) (avails.getLastD own)

/-- C6 witness: consumer at own sequence -1, one wake cycle with
availability 1 processes sequences 0 and 1 in order with the flag on 1 and
ends at 1. -/
theorem consumer_batch_exactly_once_fifo_witness :
    (((processBatch 0 1).map Prod.fst = intRange 0 1 ∧
      List.Pairwise (· < ·) ((processBatch 0 1).map Prod.fst) ∧
      (∀ q, q ∈ (processBatch 0 1).map Prod.fst ↔ 0 ≤ q ∧ q ≤ 1) ∧
      (∀ p ∈ processBatch 0 1, p.2 = true ↔ p.1 = 1)) ∧
     ((consumerRun (-1) [1]).2 = [(1 : Int)].getLastD (-1) ∧
      (consumerRun (-1) [1]).1.map Prod.fst
        = intRange (-1 + 1) ([(1 : Int)].getLastD (-1)) ∧
      List.Pairwise (· < ·) ((consumerRun (-1) [1]).1.map Prod.fst))) ∧
    consumerRun (-1) [1] = ([(0, false), (1, true)], 1) :=
  ⟨consumer_batch_exactly_once_fifo 0 1 (-1) (by norm_num) [1]
      (List.Chain.cons (by norm_num) List.Chain.nil),
   by decide⟩

/-! ## Wait strategies (spec §4.3) -/

/-- The four wait strategy variants. -/
inductive WaitStrategyKind where
  | busySpin
  | yielding
  | sleeping
  | blocking
  deriving DecidableEq, Repr

/-- The result of a wait: a newly available sequence, or halted. -/
inductive WaitResult where
  | Available (s : Int)
  | Halted
  deriving DecidableEq, Repr

/-- Modelled from the spec: one check cycle, shared by every variant: read
the halt flag first and return `Halted` if it is set; otherwise return the
availability if it has reached the desired sequence; otherwise the variant
spins / yields / sleeps with backoff / parks (a timing-only difference with
no logical effect) and re-checks. -/
def waitIteration ( kind : WaitStrategyKind) (desired : Int) (halt : Bool)
    (available : Int) : Option WaitResult :=
  if halt then some WaitResult.Halted
  else if desired ≤ available then some (WaitResult.Available available)
  else none

/-- Modelled from the spec: the wait loop of a variant, run for `fuel`
check cycles against the environment histories: `halt i` and `avail i` are
the halt flag and barrier availability read at cycle `i`.  `none` means the
wait is still in progress after `fuel` cycles. -/
def waitFor ( kind : WaitStrategyKind) (desired : Int) (halt : Nat → Bool)
    (avail : Nat → Int) : Nat → Option WaitResult
  | 0 => none
  | fuel + 1 =>
    match waitIteration kind desired (halt 0) (avail 0) with
    | some r => some r
    | none => waitFor kind desired (fun i => halt (i + 1))
        (fun i => avail (i + 1)) fuel

/-- C8: every wait strategy variant checks the halt flag on every check
cycle: if the halt flag is set at cycle `k` and no earlier cycle already
halted or found the desired sequence available, the wait returns `Halted`
at cycle `k` — no variant keeps waiting past a halt signal, however many
further cycles of fuel remain. -/
theorem wait_returns_halted_once_halt_set ( kind : WaitStrategyKind)
    (desired : Int) (halt : Nat → Bool) (avail : Nat → Int) (fuel k : Nat)
    (hk : k < fuel) (hhalt : halt k = true)
    (hbefore : ∀ j < k, halt j = false ∧ avail j < desired) :
    waitFor kind desired halt avail fuel = some WaitResult.Halted := by
  induction k generalizing halt avail fuel with
  | zero =>
    cases fuel with
    | zero => omega
    | succ f => simp [waitFor, waitIteration, hhalt]
  | succ n ih =>
    cases fuel with
    | zero => omega
    | succ f =>
      have h0 : halt 0 = false ∧ avail 0 < desired := hbefore 0 (by omega)
      have hnot : ¬ desired ≤ avail 0 := not_le.mpr h0.2
      simp only [waitFor, waitIteration, h0.1, if_false, hnot, if_neg,
        Bool.false_eq_true, if_neg hnot]
      exact ih (fun i => halt (i + 1)) (fun i => avail (i + 1)) f
        (by omega) hhalt (fun j hj => hbefore (j + 1) (by omega))

/-- C8 witness: the blocking variant with availability stuck at 0 below the
desired 5 observes the halt flag raised at cycle 1 and returns `Halted`. -/
theorem wait_returns_halted_once_halt_set_witness :
    waitFor WaitStrategyKind.blocking 5 (fun i => i == 1) (fun _ => 0) 3
      = some WaitResult.Halted :=
  wait_returns_halted_once_halt_set WaitStrategyKind.blocking 5
    (fun i => i == 1) (fun _ => 0) 3 1 (by omega) (by decide)
    (fun j hj => by
      have hj0 : j = 0 := by omega
      subst hj0
      exact ⟨rfl, by norm_num⟩)

/-! ## Multi-producer claim protocol (spec §4.7, §7) -/

/-- Modelled from the spec: the `claim_multi` protocol state for `n`
producer threads: the shared next-sequence counter, each thread's last read
of it (`none` between attempts), and each thread's granted sequences in
claim order; the multi-producer source is outside the provided sources. -/
structure MPState (n : Nat) where
  counter : Nat
  localRead : Fin n → Option Nat
  claimed : Fin n → List Nat

/-- The initial multi-producer state: nothing read, nothing granted. -/
def mpInit (n : Nat) : MPState n :=
  { counter := 0, localRead := fun _ => none, claimed := fun _ => [] }

/-- Modelled from the spec: one interleaving step of `claim_multi`: a
thread reads the shared counter; a CAS attempt against a stale read fails
and the thread retries; a CAS attempt whose read still equals the counter
atomically increments it and grants the read value to that thread. -/
inductive MPStep (n : Nat) : MPState n → MPState n → Prop where
  | read (s : MPState n) (t : Fin n) :
      MPStep n s { s with
        localRead := Function.update s.localRead t (some s.counter) }
  | casFail (s : MPState n) (t : Fin n) (v : Nat)
      (hv : s.localRead t = some v) (hne : s.counter ≠ v) :
      MPStep n s { s with localRead := Function.update s.localRead t none }
  | casSuccess (s : MPState n) (t : Fin n) (v : Nat)
      (hv : s.localRead t = some v) (heq : s.counter = v) :
      MPStep n s { s with
        counter := s.counter + 1,
        localRead := Function.update s.localRead t none,
        claimed := Function.update s.claimed t (s.claimed t ++ [v]) }

/-- States reachable by interleaved multi-producer claiming. -/
def MPReachable (n : Nat) (s : MPState n) : Prop :=
  Relation.ReflTransGen (MPStep n) (mpInit n) s

/-- The claim-uniqueness invariant: the granted sequences are exactly those
below the shared counter, each granted to exactly one thread, each thread's
grant list duplicate-free, and the counter counts all grants. -/
def MPInv {n : Nat} (s : MPState n) : Prop :=
  (∀ v, v < s.counter ↔ ∃ t, v ∈ s.claimed t) ∧
  (∀ t t' : Fin n, ∀ v, v ∈ s.claimed t → v ∈ s.claimed t' → t = t') ∧
  (∀ t, (s.claimed t).Nodup) ∧
  s.counter = ∑ t, (s.claimed t).length

lemma mpInv_init (n : Nat) : MPInv (mpInit n) := by
  refine ⟨?_, ?_, ?_, ?_⟩
  · intro v
    simp [mpInit]
  · intro t t' v hv
    simp [mpInit] at hv
  · intro t
    simp [mpInit]
  · simp [mpInit]

lemma mpInv_step {n : Nat} {s s' : MPState n} (hstep : MPStep n s s')
    (hinv : MPInv s) : MPInv s' := by
  obtain ⟨h1, h2, h3, h4⟩ := hinv
  cases hstep with
  | read t => exact ⟨h1, h2, h3, h4⟩
  | casFail t v hv hne => exact ⟨h1, h2, h3, h4⟩
  | casSuccess t v hv heq =>
    subst heq
    refine ⟨?_, ?_, ?_, ?_⟩
    · intro v'
      show v' < s.counter + 1 ↔
        ∃ u, v' ∈ Function.update s.claimed t (s.claimed t ++ [s.counter]) u
      constructor
      · intro hlt
        rcases Nat.lt_succ_iff_lt_or_eq.mp hlt with hlt' | rfl
        · rcases (h1 v').mp hlt' with ⟨u, hu⟩
          refine ⟨u, ?_⟩
          rw [Function.update_apply]
          split_ifs with hut
          · rw [hut] at hu
            exact List.mem_append.mpr (Or.inl hu)
          · exact hu
        · refine ⟨t, ?_⟩
          rw [Function.update_same]
          exact List.mem_append.mpr (Or.inr (by simp))
      · rintro ⟨u, hu⟩
        rw [Function.update_apply] at hu
        split_ifs at hu with hut
        · rcases List.mem_append.mp hu with h | h
          · exact Nat.lt_succ_of_lt ((h1 v').mpr ⟨t, h⟩)
          · simp at h
            omega
        · exact Nat.lt_succ_of_lt ((h1 v').mpr ⟨u, hu⟩)
    · show ∀ u u' : Fin n, ∀ v',
          v' ∈ Function.update s.claimed t (s.claimed t ++ [s.counter]) u →
          v' ∈ Function.update s.claimed t (s.claimed t ++ [s.counter]) u' →
          u = u'
      intro u u' v' hu hu'
      rw [Function.update_apply] at hu hu'
      split_ifs at hu hu' with hut hut1 hut2
      · rw [hut, hut1]
      · rcases List.mem_append.mp hu with h | h
        · rw [hut]
          exact h2 t u' v' h hu'
        · simp at h
          subst h
          have := (h1 s.counter).mpr ⟨u', hu'⟩
          omega
      · rcases List.mem_append.mp hu' with h | h
        · rw [hut2]
          exact (h2 t u v' h hu).symm
        · simp at h
          subst h
          have := (h1 s.counter).mpr ⟨u, hu⟩
          omega
      · exact h2 u u' v' hu hu'
    · show ∀ u : Fin n,
          (Function.update s.claimed t (s.claimed t ++ [s.counter]) u).Nodup
      intro u
      rw [Function.update_apply]
      split_ifs with hut
      · have hnotmem : s.counter ∉ s.claimed t := by
          intro hmem
          have := (h1 s.counter).mpr ⟨t, hmem⟩
          omega
        rw [(List.perm_append_singleton _ _).nodup_iff]
        exact List.nodup_cons.mpr ⟨hnotmem, h3 t⟩
      · exact h3 u
    · show s.counter + 1 = ∑ u,
        (Function.update s.claimed t (s.claimed t ++ [s.counter]) u).length
      have hsum : ∑ u,
          (Function.update s.claimed t (s.claimed t ++ [s.counter]) u).length
          = ∑ u, Function.update (fun u' => (s.claimed u').length) t
              ((s.claimed t).length + 1) u := by
        refine Finset.sum_congr rfl ?_
        intro u _
        by_cases hut : u = t
        · subst hut
          simp [Function.update_same]
        · simp [Function.update_noteq hut]
      rw [hsum, Finset.sum_update_of_mem (Finset.mem_univ t), h4,
        Finset.sum_eq_sum_diff_singleton_add (Finset.mem_univ t)
          (fun u => (s.claimed u).length)]
      omega

lemma mpInv_reachable {n : Nat} {s : MPState n} (hr : MPReachable n s) :
    MPInv s := by
  induction hr with
  | refl => exact mpInv_init n
  | tail _ hstep ih => exact mpInv_step hstep ih

/-- C4: `claim_multi` never grants the same sequence number to two callers:
in every reachable multi-producer state each granted sequence belongs to
exactly one thread and no thread holds a duplicate; and once each of the
`n` producer threads holds exactly `m` grants, the union of granted
sequences is exactly `{0, …, n*m - 1}`: no duplicates and no gaps. -/
theorem multi_producer_claims_unique (n m : Nat) (s : MPState n)
    (hr : MPReachable n s) (hall : ∀ t, (s.claimed t).length = m) :
    (∀ t t' : Fin n, ∀ v, v ∈ s.claimed t → v ∈ s.claimed t' → t = t') ∧
    (∀ t, (s.claimed t).Nodup) ∧
    (∀ v, (∃ t, v ∈ s.claimed t) ↔ v < n * m) := by
  obtain ⟨h1, h2, h3, h4⟩ := mpInv_reachable hr
  refine ⟨h2, h3, ?_⟩
  have hc : s.counter = n * m := by
    rw [h4]
    simp [hall, Finset.sum_const, Finset.card_univ, Fintype.card_fin,
      smul_eq_mul]
  intro v
  rw [← hc]
  exact (h1 v).symm

/-- The multi-producer state after one read and one successful CAS by the
single thread of a one-producer configuration: sequence 0 granted. -/
def mpWitnessState : MPState 1 :=
  { counter := 1,
    localRead := Function.update
      (Function.update (fun _ => (none : Option Nat)) (0 : Fin 1) (some 0))
      (0 : Fin 1) none,
    claimed := Function.update (fun _ => ([] : List Nat)) (0 : Fin 1)
      ([] ++ [0]) }

/-- C4 witness: with one producer thread holding one grant after a
read-then-CAS claim, the granted set is exactly `{0}`. -/
theorem multi_producer_claims_unique_witness :
    (∀ t t' : Fin 1, ∀ v, v ∈ mpWitnessState.claimed t →
        v ∈ mpWitnessState.claimed t' → t = t') ∧
    (∀ t : Fin 1, (mpWitnessState.claimed t).Nodup) ∧
    (∀ v, (∃ t : Fin 1, v ∈ mpWitnessState.claimed t) ↔ v < 1 * 1) :=
  multi_producer_claims_unique 1 1 mpWitnessState
    (Relation.ReflTransGen.tail
      (Relation.ReflTransGen.tail Relation.ReflTransGen.refl
        (MPStep.read (mpInit 1) 0))
      (MPStep.casSuccess _ 0 0 (by simp [mpInit]) rfl))
    (by decide)

end DclRingBuffer
